import Mathlib

/-!
Shallow embedding of `pixelArt_png2svg.py` (Pixel-Art png2svg).

The script converts a raster image into SVG rectangles:
  * `find_horizontal_line` / `find_vertical_line` measure runs of
    identical unclaimed color;
  * `find_rectangle` greedily extracts a maximal rectangle anchored at a
    seed cell (width fixed by the first row's run, height grown while each
    row's capped run reaches that width);
  * `convert_png_to_svg` sweeps the grid row-major, suppressing black and
    transparent pixels and claiming the cells of each emitted shape;
  * `optimize_shapes` groups shapes by color, sorts each group by (y, x)
    and folds, merging a shape into the previous entry when they touch
    horizontally or vertically;
  * `shape_to_path` renders each shape as an SVG path string, and the
    shapes of one color are space-joined into a single path element.

Pixels are RGBA quadruples of naturals (the source reads uint8 channels
from a numpy array; no arithmetic overflows here, equality is exact
component-wise equality).  The pixel grid is a total function
`Nat → Nat → Pixel` queried as `img x y` (the source indexes
`img_array[y][x]`), together with explicit `width`/`height` taken from
`img.size`.  The claimed mask `processed` is a finite set of `(x, y)`
cells.  The opacity attribute value is the float `a / 255`; the emitted
document is modelled structurally, keeping the exact `d`/`fill` strings
and recording the alpha numerator when the attribute is present
(`a / 255 < 1` holds exactly when `a < 255`).
-/

/-- RGBA pixel; channel equality is exact component-wise equality. -/
structure Pixel where
  r : Nat
  g : Nat
  b : Nat
  a : Nat
deriving DecidableEq

/-- Embedding of the `PixelGroup` class: an axis-aligned rectangle with
top-left corner (x, y) and a uniform color.  The source also stores the
derived field `area = width * height`, which is never read anywhere in the
script, so it is omitted here. -/
structure PixelGroup where
  x : Nat
  y : Nat
  width : Nat
  height : Nat
  color : Pixel
deriving DecidableEq

/-- Loop body of `find_horizontal_line`: counts consecutive cells from
column x rightward that are unclaimed and of the given color; the fuel is
the distance to the exclusive bound `width`, so running out of fuel is
exactly the loop condition `x < width` failing. -/
def hlineAux (img : Nat → Nat → Pixel) (y : Nat) (color : Pixel)
    (processed : Finset (Nat × Nat)) : Nat → Nat → Nat
  | _, 0 => 0
  | x, fuel + 1 =>
    if (x, y) ∉ processed ∧ img x y = color then
      hlineAux img y color processed (x + 1) fuel + 1
    else 0

/-- Embedding of `find_horizontal_line(img_array, start_x, y, color, width,
processed)`. -/
def find_horizontal_line (img : Nat → Nat → Pixel) (start_x y : Nat)
    (color : Pixel) (width : Nat) (processed : Finset (Nat × Nat)) : Nat :=
  hlineAux img y color processed start_x (width - start_x)

/-- Loop body of `find_vertical_line`, symmetric to `hlineAux`. -/
def vlineAux (img : Nat → Nat → Pixel) (x : Nat) (color : Pixel)
    (processed : Finset (Nat × Nat)) : Nat → Nat → Nat
  | _, 0 => 0
  | y, fuel + 1 =>
    if (x, y) ∉ processed ∧ img x y = color then
      vlineAux img x color processed (y + 1) fuel + 1
    else 0

/-- Embedding of `find_vertical_line(img_array, x, start_y, color, height,
processed)`. -/
def find_vertical_line (img : Nat → Nat → Pixel) (x start_y : Nat)
    (color : Pixel) (height : Nat) (processed : Finset (Nat × Nat)) : Nat :=
  vlineAux img x color processed start_y (height - start_y)

/-- Loop body of the `for y in range(start_y + 1, height)` loop of
`find_rectangle`: counts the consecutive rows whose capped horizontal run
(bounded by `cap = start_x + rect_width`) reaches `rect_width`. -/
def rectHeightAux (img : Nat → Nat → Pixel) (start_x : Nat) (color : Pixel)
    (cap rect_width : Nat) (processed : Finset (Nat × Nat)) : Nat → Nat → Nat
  | _, 0 => 0
  | y, fuel + 1 =>
    if find_horizontal_line img start_x y color cap processed < rect_width then 0
    else rectHeightAux img start_x color cap rect_width processed (y + 1) fuel + 1

/-- Embedding of `find_rectangle(img_array, start_x, start_y, color, width,
height, processed)`: the width is the maximal horizontal run at the seed,
then the height is 1 plus the number of subsequent rows whose horizontal
run, capped by passing `start_x + rect_width` as the width bound, is not
shorter than `rect_width`. -/
def find_rectangle (img : Nat → Nat → Pixel) (start_x start_y : Nat)
    (color : Pixel) (width height : Nat)
    (processed : Finset (Nat × Nat)) : Option PixelGroup :=
  let rect_width := find_horizontal_line img start_x start_y color width processed
  if rect_width = 0 then none
  else some
    { x := start_x, y := start_y, width := rect_width,
      height := 1 + rectHeightAux img start_x color (start_x + rect_width)
        rect_width processed (start_y + 1) (height - (start_y + 1)),
      color := color }

/-- Suppression test of the scanner: `color[3] == 0 or (color[0] == 0 and
color[1] == 0 and color[2] == 0)`. -/
def suppressed (c : Pixel) : Prop :=
  c.a = 0 ∨ (c.r = 0 ∧ c.g = 0 ∧ c.b = 0)

instance : DecidablePred suppressed := fun c => by
  unfold suppressed; infer_instance

/-- Cell membership of a width × height block anchored at (x, y), as the
numpy slice assignment `processed[y:y+height, x:x+width] = True` claims it. -/
def blockCells (x y width height : Nat) : Finset (Nat × Nat) :=
  ((Finset.range width) ×ˢ (Finset.range height)).image
    (fun q => (x + q.1, y + q.2))

/-- Cell c lies inside shape s. -/
def covers (s : PixelGroup) (c : Nat × Nat) : Prop :=
  s.x ≤ c.1 ∧ c.1 < s.x + s.width ∧ s.y ≤ c.2 ∧ c.2 < s.y + s.height

instance (s : PixelGroup) : DecidablePred (covers s) := fun c => by
  unfold covers; infer_instance

/-- State threaded through the per-pixel loop of `convert_png_to_svg`:
the claimed mask and the list of emitted shapes in creation order. -/
structure ScanState where
  processed : Finset (Nat × Nat)
  shapes : List PixelGroup
deriving DecidableEq

/-- Body of the per-pixel loop of `convert_png_to_svg` at scan position p:
skip claimed cells; claim and skip black/transparent pixels; otherwise try
`find_rectangle`, then a vertical line of length > 1, then a horizontal
line of length > 1, then a single pixel, claiming the covered cells. -/
def scanStep (img : Nat → Nat → Pixel) (width height : Nat)
    (st : ScanState) (p : Nat × Nat) : ScanState :=
  if p ∈ st.processed then st
  else if suppressed (img p.1 p.2) then
    { st with processed := insert p st.processed }
  else
    match find_rectangle img p.1 p.2 (img p.1 p.2) width height st.processed with
    | some rect =>
        { processed := st.processed ∪ blockCells rect.x rect.y rect.width rect.height,
          shapes := st.shapes ++ [rect] }
    | none =>
        if 1 < find_vertical_line img p.1 p.2 (img p.1 p.2) height st.processed then
          { processed := st.processed ∪
              blockCells p.1 p.2 1 (find_vertical_line img p.1 p.2 (img p.1 p.2) height st.processed),
            shapes := st.shapes ++
              [⟨p.1, p.2, 1, find_vertical_line img p.1 p.2 (img p.1 p.2) height st.processed, img p.1 p.2⟩] }
        else if 1 < find_horizontal_line img p.1 p.2 (img p.1 p.2) width st.processed then
          { processed := st.processed ∪
              blockCells p.1 p.2 (find_horizontal_line img p.1 p.2 (img p.1 p.2) width st.processed) 1,
            shapes := st.shapes ++
              [⟨p.1, p.2, find_horizontal_line img p.1 p.2 (img p.1 p.2) width st.processed, 1, img p.1 p.2⟩] }
        else
          { processed := insert p st.processed,
            shapes := st.shapes ++ [⟨p.1, p.2, 1, 1, img p.1 p.2⟩] }

/-- Row-major sweep order of the nested `for y in range(height): for x in
range(width)` loops, as (x, y) cells. -/
def scanOrder (width height : Nat) : List (Nat × Nat) :=
  (List.range height).flatMap (fun y => (List.range width).map (fun x => (x, y)))

/-- Whole tiling scan of `convert_png_to_svg`: fold the per-pixel step over
the row-major order, starting from an all-false mask and no shapes. -/
def scanGrid (img : Nat → Nat → Pixel) (width height : Nat) : ScanState :=
  (scanOrder width height).foldl (scanStep img width height) ⟨∅, []⟩

/-- First-seen order of the distinct colors of a shape list, as iterating a
`defaultdict` built by appending preserves key insertion order. -/
def colorKeys (shapes : List PixelGroup) : List Pixel :=
  shapes.foldl (fun ks s => if s.color ∈ ks then ks else ks ++ [s.color]) []

/-- Shapes of one color, in their original relative order. -/
def groupOf (shapes : List PixelGroup) (c : Pixel) : List PixelGroup :=
  shapes.filter (fun s => decide (s.color = c))

/-- Sort key comparison of `group.sort(key=lambda s: (s.y, s.x))`:
lexicographic on (y, x).  Python's sort is stable, and so is
`List.insertionSort` with this total preorder. -/
def shapeLE (s t : PixelGroup) : Prop :=
  s.y < t.y ∨ (s.y = t.y ∧ s.x ≤ t.x)

instance : DecidableRel shapeLE := fun s t => by
  unfold shapeLE; infer_instance

/-- Horizontal merge test of `optimize_shapes`:
`last_shape.y == shape.y and last_shape.x + last_shape.width == shape.x`. -/
def hcond (last shape : PixelGroup) : Prop :=
  last.y = shape.y ∧ last.x + last.width = shape.x

instance : ∀ l s, Decidable (hcond l s) := fun l s => by
  unfold hcond; infer_instance

/-- Vertical merge test of `optimize_shapes`: `last_shape.x == shape.x and
last_shape.width == shape.width and last_shape.y + last_shape.height ==
shape.y`. -/
def vcond (last shape : PixelGroup) : Prop :=
  last.x = shape.x ∧ last.width = shape.width ∧ last.y + last.height = shape.y

instance : ∀ l s, Decidable (vcond l s) := fun l s => by
  unfold vcond; infer_instance

/-- One iteration of the `for shape in group` fold of `optimize_shapes`.
The accumulator is the reversed `current_path`, so its head is
`current_path[-1]`; the merge branches mutate that last entry in place. -/
def mergeStep (acc : List PixelGroup) (shape : PixelGroup) : List PixelGroup :=
  match acc with
  | [] => [shape]
  | last :: rest =>
    if hcond last shape then { last with width := last.width + shape.width } :: rest
    else if vcond last shape then { last with height := last.height + shape.height } :: rest
    else shape :: last :: rest

/-- Merge fold of `optimize_shapes` over one sorted color group. -/
def mergeGroup (group : List PixelGroup) : List PixelGroup :=
  (group.foldl mergeStep []).reverse

/-- Embedding of `optimize_shapes`: group by color in first-seen key order,
sort each group by (y, x), fold the merge step, and concatenate. -/
def optimize_shapes (shapes : List PixelGroup) : List PixelGroup :=
  (colorKeys shapes).flatMap
    (fun c => mergeGroup (List.insertionSort shapeLE (groupOf shapes c)))

/-- Embedding of `shape_to_path`: `M x y` then `h w`, `v h`, `h -w` and a
final `z` appended with no separating space. -/
def shape_to_path (s : PixelGroup) : String :=
  "M " ++ toString s.x ++ " " ++ toString s.y
    ++ " h " ++ toString s.width
    ++ " v " ++ toString s.height
    ++ " h " ++ toString (-(s.width : Int))
    ++ "z"

/-- Two-digit lowercase hex rendering of `'{:02x}'.format(n)`. -/
def hexByte (n : Nat) : String :=
  let s := String.mk (Nat.toDigits 16 n)
  if s.length < 2 then "0" ++ s else s

/-- Fill attribute string `'#{:02x}{:02x}{:02x}'.format(r, g, b)`. -/
def hexColor (c : Pixel) : String :=
  "#" ++ hexByte c.r ++ hexByte c.g ++ hexByte c.b

/-- One `<path .../>` element of the output, modelled structurally: the
exact `d` and `fill` strings, and the alpha numerator when the opacity
attribute is present.  The source emits the attribute exactly when the
float `a / 255 < 1`, i.e. when `a < 255`, with value `a / 255`. -/
structure PathElem where
  d : String
  fill : String
  opacityNum : Option Nat
deriving DecidableEq

/-- Path element built for one color group of the final shape list:
the member shapes' path strings are space-joined into one `d` attribute. -/
def pathElemOf (shapes : List PixelGroup) (c : Pixel) : PathElem :=
  { d := String.intercalate " " ((groupOf shapes c).map shape_to_path),
    fill := hexColor c,
    opacityNum := if c.a < 255 then some c.a else none }

/-- Output document: the opening `<svg ...>` line and the path elements in
color first-seen order.  The source then joins these lines and a closing
tag with newlines and writes the file. -/
structure SvgDoc where
  header : String
  paths : List PathElem
deriving DecidableEq

/-- Opening line `<svg xmlns="http://www.w3.org/2000/svg" viewBox="0 0 W H">`. -/
def svgHeader (width height : Nat) : String :=
  "<svg xmlns=\"http://www.w3.org/2000/svg\" viewBox=\"0 0 "
    ++ toString width ++ " " ++ toString height ++ "\">"

/-- Embedding of the core of `convert_png_to_svg`, from the decoded pixel
grid to the output document: scan, optimize, group the optimized shapes by
color again and emit one path element per color. -/
def convert_png_to_svg (img : Nat → Nat → Pixel) (width height : Nat) : SvgDoc :=
  { header := svgHeader width height,
    paths :=
      (colorKeys (optimize_shapes (scanGrid img width height).shapes)).map
        (pathElemOf (optimize_shapes (scanGrid img width height).shapes)) }

/-- Strict row-major order on cells: earlier row, or same row and smaller
column. -/
def scanLT (p q : Nat × Nat) : Prop :=
  p.2 < q.2 ∨ (p.2 = q.2 ∧ p.1 < q.1)

/-- Reflexive row-major order on cells. -/
def scanLE (p q : Nat × Nat) : Prop :=
  p.2 < q.2 ∨ (p.2 = q.2 ∧ p.1 ≤ q.1)

/-- Cell visited at step n of the row-major sweep. -/
def scanPos (width n : Nat) : Nat × Nat :=
  (n % width, n / width)

/-- State after the first n steps of the tiling scan. -/
def scanUpTo (img : Nat → Nat → Pixel) (width height n : Nat) : ScanState :=
  ((scanOrder width height).take n).foldl (scanStep img width height) ⟨∅, []⟩

/-- Membership in a claimed block, arithmetically. -/
theorem mem_blockCells {x y width height : Nat} {c : Nat × Nat} :
    c ∈ blockCells x y width height ↔
      x ≤ c.1 ∧ c.1 < x + width ∧ y ≤ c.2 ∧ c.2 < y + height := by
  unfold blockCells
  simp only [Finset.mem_image, Finset.mem_product, Finset.mem_range]
  constructor
  · rintro ⟨q, ⟨hq1, hq2⟩, rfl⟩
    omega
  · rintro ⟨h1, h2, h3, h4⟩
    refine ⟨(c.1 - x, c.2 - y), ⟨by omega, by omega⟩, ?_⟩
    simp only [Prod.ext_iff]
    omega

/-- Cells of a shape and of its claimed block coincide. -/
theorem covers_iff_mem_blockCells {s : PixelGroup} {c : Nat × Nat} :
    covers s c ↔ c ∈ blockCells s.x s.y s.width s.height := by
  rw [mem_blockCells]; rfl

/-- Covering shapes start at or before the covered cell in row-major
order. -/
theorem covers_scanLE {s : PixelGroup} {c : Nat × Nat} (h : covers s c) :
    scanLE (s.x, s.y) c := by
  obtain ⟨h1, h2, h3, h4⟩ := h
  unfold scanLE
  rcases Nat.lt_or_ge s.y c.2 with h | h
  · exact Or.inl h
  · exact Or.inr ⟨by omega, h1⟩

theorem hlineAux_le (img : Nat → Nat → Pixel) (y : Nat) (color : Pixel)
    (processed : Finset (Nat × Nat)) :
    ∀ fuel x, hlineAux img y color processed x fuel ≤ fuel := by
  intro fuel
  induction fuel with
  | zero => intro x; simp [hlineAux]
  | succ n ih =>
    intro x
    unfold hlineAux
    split
    · have := ih (x + 1); omega
    · omega

theorem hlineAux_run (img : Nat → Nat → Pixel) (y : Nat) (color : Pixel)
    (processed : Finset (Nat × Nat)) :
    ∀ fuel x i, i < hlineAux img y color processed x fuel →
      (x + i, y) ∉ processed ∧ img (x + i) y = color := by
  intro fuel
  induction fuel with
  | zero => intro x i h; simp [hlineAux] at h
  | succ n ih =>
    intro x i h
    unfold hlineAux at h
    split at h
    · rename_i hpass
      match i with
      | 0 => simpa using hpass
      | i' + 1 =>
        have := ih (x + 1) i' (by omega)
        have hx : x + 1 + i' = x + (i' + 1) := by omega
        rwa [hx] at this
    · omega

theorem hlineAux_stop (img : Nat → Nat → Pixel) (y : Nat) (color : Pixel)
    (processed : Finset (Nat × Nat)) :
    ∀ fuel x, hlineAux img y color processed x fuel < fuel →
      ¬((x + hlineAux img y color processed x fuel, y) ∉ processed ∧
        img (x + hlineAux img y color processed x fuel) y = color) := by
  intro fuel
  induction fuel with
  | zero => intro x h; omega
  | succ n ih =>
    intro x h
    unfold hlineAux at h ⊢
    split
    · rename_i hpass
      rw [if_pos hpass] at h
      have hlt : hlineAux img y color processed (x + 1) n < n := by omega
      have := ih (x + 1) hlt
      intro hcontra
      apply this
      have hx : x + 1 + hlineAux img y color processed (x + 1) n =
          x + (hlineAux img y color processed (x + 1) n + 1) := by omega
      rwa [hx]
    · rename_i hfail
      simpa using hfail

/-- Positive first step of the horizontal run loop. -/
theorem hlineAux_pos (img : Nat → Nat → Pixel) (y : Nat) (color : Pixel)
    (processed : Finset (Nat × Nat)) (fuel x : Nat) (hf : 0 < fuel)
    (hp : (x, y) ∉ processed) (hc : img x y = color) :
    0 < hlineAux img y color processed x fuel := by
  obtain ⟨n, rfl⟩ : ∃ n, fuel = n + 1 := ⟨fuel - 1, by omega⟩
  unfold hlineAux
  rw [if_pos ⟨hp, hc⟩]
  omega

theorem rectHeightAux_le (img : Nat → Nat → Pixel) (start_x : Nat)
    (color : Pixel) (cap rect_width : Nat) (processed : Finset (Nat × Nat)) :
    ∀ fuel y, rectHeightAux img start_x color cap rect_width processed y fuel ≤ fuel := by
  intro fuel
  induction fuel with
  | zero => intro y; simp [rectHeightAux]
  | succ n ih =>
    intro y
    unfold rectHeightAux
    split
    · omega
    · have := ih (y + 1); omega

theorem rectHeightAux_run (img : Nat → Nat → Pixel) (start_x : Nat)
    (color : Pixel) (cap rect_width : Nat) (processed : Finset (Nat × Nat)) :
    ∀ fuel y j, j < rectHeightAux img start_x color cap rect_width processed y fuel →
      rect_width ≤ find_horizontal_line img start_x (y + j) color cap processed := by
  intro fuel
  induction fuel with
  | zero => intro y j h; simp [rectHeightAux] at h
  | succ n ih =>
    intro y j h
    unfold rectHeightAux at h
    split at h
    · omega
    · rename_i hok
      match j with
      | 0 => simpa using Nat.le_of_not_lt hok
      | j' + 1 =>
        have := ih (y + 1) j' (by omega)
        have hy : y + 1 + j' = y + (j' + 1) := by omega
        rwa [hy] at this

theorem rectHeightAux_stop (img : Nat → Nat → Pixel) (start_x : Nat)
    (color : Pixel) (cap rect_width : Nat) (processed : Finset (Nat × Nat)) :
    ∀ fuel y, rectHeightAux img start_x color cap rect_width processed y fuel < fuel →
      find_horizontal_line img start_x
        (y + rectHeightAux img start_x color cap rect_width processed y fuel)
        color cap processed < rect_width := by
  intro fuel
  induction fuel with
  | zero => intro y h; omega
  | succ n ih =>
    intro y h
    unfold rectHeightAux at h ⊢
    split
    · rename_i hbad
      simpa using hbad
    · rename_i hok
      rw [if_neg hok] at h
      have hlt : rectHeightAux img start_x color cap rect_width processed (y + 1) n < n := by
        omega
      have := ih (y + 1) hlt
      have hy : y + 1 + rectHeightAux img start_x color cap rect_width processed (y + 1) n =
          y + (rectHeightAux img start_x color cap rect_width processed (y + 1) n + 1) := by
        omega
      rwa [hy] at this

/-- Full characterization of `find_rectangle` at an in-grid, unclaimed,
matching seed: it returns a shape anchored at the seed whose width is the
maximal horizontal run there and whose height extends exactly through the
consecutive subsequent rows where all `rect_width` cells are unclaimed and
matching, stopping at the first row whose capped run falls short. -/
theorem find_rectangle_spec (img : Nat → Nat → Pixel) (x y : Nat)
    (color : Pixel) (w h : Nat) (processed : Finset (Nat × Nat))
    (hx : x < w) (hy : y < h) (hp : (x, y) ∉ processed) (hc : img x y = color) :
    ∃ r, find_rectangle img x y color w h processed = some r ∧
      r.x = x ∧ r.y = y ∧ r.color = color ∧
      0 < r.width ∧ x + r.width ≤ w ∧ 0 < r.height ∧ y + r.height ≤ h ∧
      (∀ i < r.width, (x + i, y) ∉ processed ∧ img (x + i) y = color) ∧
      (∀ j, 0 < j → j < r.height → ∀ i < r.width,
          (x + i, y + j) ∉ processed ∧ img (x + i) (y + j) = color) ∧
      (∀ c : Nat × Nat, covers r c → c ∉ processed ∧ img c.1 c.2 = color) ∧
      (x + r.width < w → ((x + r.width, y) ∈ processed ∨ img (x + r.width) y ≠ color)) ∧
      (y + r.height < h → ∃ i < r.width,
          ((x + i, y + r.height) ∈ processed ∨ img (x + i) (y + r.height) ≠ color)) := by
  set n := find_horizontal_line img x y color w processed with hn
  set k := rectHeightAux img x color (x + n) n processed (y + 1) (h - (y + 1)) with hk
  have hnaux : n = hlineAux img y color processed x (w - x) := by rw [hn]; rfl
  have hn_pos : 0 < n := by
    rw [hnaux]
    exact hlineAux_pos img y color processed (w - x) x (by omega) hp hc
  have hn_le : n ≤ w - x := by
    rw [hnaux]
    exact hlineAux_le img y color processed (w - x) x
  have hk_le : k ≤ h - (y + 1) := by
    rw [hk]
    exact rectHeightAux_le img x color (x + n) n processed (h - (y + 1)) (y + 1)
  have hrow0 : ∀ i < n, (x + i, y) ∉ processed ∧ img (x + i) y = color := by
    intro i hi
    rw [hnaux] at hi
    exact hlineAux_run img y color processed (w - x) x i hi
  have hrows : ∀ j, 0 < j → j < 1 + k → ∀ i < n,
      (x + i, y + j) ∉ processed ∧ img (x + i) (y + j) = color := by
    intro j hj0 hjk i hi
    have hj' : j - 1 < rectHeightAux img x color (x + n) n processed (y + 1) (h - (y + 1)) := by
      rw [← hk]; omega
    have hge := rectHeightAux_run img x color (x + n) n processed (h - (y + 1)) (y + 1)
      (j - 1) hj'
    have hyj : y + 1 + (j - 1) = y + j := by omega
    rw [hyj] at hge
    have hcap : find_horizontal_line img x (y + j) color (x + n) processed =
        hlineAux img (y + j) color processed x n := by
      unfold find_horizontal_line
      congr 1
      omega
    rw [hcap] at hge
    exact hlineAux_run img (y + j) color processed n x i (by omega)
  have hr : find_rectangle img x y color w h processed = some ⟨x, y, n, 1 + k, color⟩ := by
    simp only [find_rectangle]
    rw [← hn, if_neg (by omega : ¬n = 0), ← hk]
  refine ⟨⟨x, y, n, 1 + k, color⟩, hr, rfl, rfl, rfl, hn_pos, ?_, ?_, ?_, hrow0, hrows,
    ?_, ?_, ?_⟩
  · show x + n ≤ w
    omega
  · show 0 < 1 + k
    omega
  · show y + (1 + k) ≤ h
    omega
  · rintro ⟨cx, cy⟩ ⟨h1, h2, h3, h4⟩
    simp only at h1 h2 h3 h4 ⊢
    rcases Nat.eq_or_lt_of_le h3 with hcy | hcy
    · have := hrow0 (cx - x) (by omega)
      have hxc : x + (cx - x) = cx := by omega
      rw [hxc] at this
      rw [← hcy]
      exact this
    · have := hrows (cy - y) (by omega) (by omega) (cx - x) (by omega)
      have hxc : x + (cx - x) = cx := by omega
      have hyc : y + (cy - y) = cy := by omega
      rw [hxc, hyc] at this
      exact this
  · show x + n < w → ((x + n, y) ∈ processed ∨ img (x + n) y ≠ color)
    intro hlt
    have hstop := hlineAux_stop img y color processed (w - x) x (by omega)
    rw [← hnaux] at hstop
    by_cases hmem : (x + n, y) ∈ processed
    · exact Or.inl hmem
    · exact Or.inr (fun hceq => hstop ⟨hmem, hceq⟩)
  · show y + (1 + k) < h → ∃ i < n,
      ((x + i, y + (1 + k)) ∈ processed ∨ img (x + i) (y + (1 + k)) ≠ color)
    intro hlt
    have hkfuel : rectHeightAux img x color (x + n) n processed (y + 1) (h - (y + 1)) <
        h - (y + 1) := by
      rw [← hk]; omega
    have hstop := rectHeightAux_stop img x color (x + n) n processed (h - (y + 1)) (y + 1)
      hkfuel
    rw [← hk] at hstop
    have hyk : y + 1 + k = y + (1 + k) := by omega
    rw [hyk] at hstop
    have hcap : find_horizontal_line img x (y + (1 + k)) color (x + n) processed =
        hlineAux img (y + (1 + k)) color processed x n := by
      unfold find_horizontal_line
      congr 1
      omega
    rw [hcap] at hstop
    have hfail := hlineAux_stop img (y + (1 + k)) color processed n x hstop
    refine ⟨hlineAux img (y + (1 + k)) color processed x n, hstop, ?_⟩
    by_cases hmem : (x + hlineAux img (y + (1 + k)) color processed x n, y + (1 + k)) ∈ processed
    · exact Or.inl hmem
    · exact Or.inr (fun hceq => hfail ⟨hmem, hceq⟩)

theorem scanOrder_succ (w h : Nat) :
    scanOrder w (h + 1) = scanOrder w h ++ (List.range w).map (fun x => (x, h)) := by
  simp [scanOrder, List.range_succ]

theorem mem_scanOrder {w h : Nat} {q : Nat × Nat} :
    q ∈ scanOrder w h ↔ q.1 < w ∧ q.2 < h := by
  unfold scanOrder
  simp only [List.mem_flatMap, List.mem_map, List.mem_range]
  constructor
  · rintro ⟨y, hy, x, hx, rfl⟩
    exact ⟨hx, hy⟩
  · rintro ⟨h1, h2⟩
    exact ⟨q.2, h2, q.1, h1, rfl⟩

/-- Row-major order as indices: step n visits `scanPos w n`. -/
theorem scanOrder_eq (w h : Nat) :
    scanOrder w h = (List.range (h * w)).map (scanPos w) := by
  rcases Nat.eq_zero_or_pos w with hw | hw
  · subst hw
    simp [scanOrder, scanPos]
  · induction h with
    | zero => simp [scanOrder]
    | succ m ih =>
      rw [scanOrder_succ, ih]
      have hmul : (m + 1) * w = m * w + w := by ring
      rw [hmul, List.range_add, List.map_append, List.map_map]
      congr 1
      apply List.map_congr_left
      intro i hi
      rw [List.mem_range] at hi
      show (i, m) = scanPos w (m * w + i)
      unfold scanPos
      have h1 : (m * w + i) % w = i := by
        rw [Nat.add_comm, Nat.add_mul_mod_self_right]
        exact Nat.mod_eq_of_lt hi
      have h2 : (m * w + i) / w = m := by
        rw [Nat.add_comm, Nat.add_mul_div_right _ _ hw, Nat.div_eq_of_lt hi]
        omega
      rw [h1, h2]

theorem scanOrder_length (w h : Nat) : (scanOrder w h).length = h * w := by
  rw [scanOrder_eq]
  simp

theorem scanPos_lt_of_lt {w m n : Nat} (hmn : m < n) : scanLT (scanPos w m) (scanPos w n) := by
  unfold scanPos scanLT
  show m / w < n / w ∨ (m / w = n / w ∧ m % w < n % w)
  rcases Nat.eq_zero_or_pos w with hw | hw
  · subst hw
    exact Or.inr ⟨by simp, by simpa using hmn⟩
  · rcases Nat.lt_trichotomy (m / w) (n / w) with hdiv | hdiv | hdiv
    · exact Or.inl hdiv
    · have h1 := Nat.div_add_mod m w
      have h2 := Nat.div_add_mod n w
      have hbd : w * (m / w) = w * (n / w) := by rw [hdiv]
      exact Or.inr ⟨hdiv, by omega⟩
    · exfalso
      have h1 := Nat.div_add_mod m w
      have h2 := Nat.div_add_mod n w
      have h3 : m % w < w := Nat.mod_lt _ hw
      have h4 : n % w < w := Nat.mod_lt _ hw
      have h5 : w * (n / w + 1) ≤ w * (m / w) := Nat.mul_le_mul_left w (by omega)
      rw [Nat.mul_add, Nat.mul_one] at h5
      omega

theorem scanOrder_pairwise (w h : Nat) : (scanOrder w h).Pairwise scanLT := by
  rw [scanOrder_eq, List.pairwise_map]
  exact (List.pairwise_lt_range _).imp (fun hmn => scanPos_lt_of_lt hmn)

theorem scanOrder_getElem (w h n : Nat) (hn : n < (scanOrder w h).length) :
    (scanOrder w h)[n] = scanPos w n := by
  have hn' : n < h * w := by rwa [scanOrder_length] at hn
  simp [scanOrder_eq, List.getElem_map, List.getElem_range]

/-- Invariant of the tiling scan, relating the current state to the list
of cells still to be visited.  It packages: mask and shape cells stay in
the grid, shape cells are claimed, colored like the source pixels and
pairwise disjoint, shapes are anchored at non-suppressed seeds visited in
scan order, each shape is maximal to the right and downward at its
creation (witnessed against the monotone mask), and no two shapes of one
color ever satisfy a merge condition of `optimize_shapes`. -/
structure ScanInv (img : Nat → Nat → Pixel) (w h : Nat)
    (st : ScanState) (todo : List (Nat × Nat)) : Prop where
  procGrid : ∀ c ∈ st.processed, c.1 < w ∧ c.2 < h
  covProc : ∀ s ∈ st.shapes, ∀ c : Nat × Nat, covers s c → c ∈ st.processed
  covGrid : ∀ s ∈ st.shapes, ∀ c : Nat × Nat, covers s c → c.1 < w ∧ c.2 < h
  covColor : ∀ s ∈ st.shapes, ∀ c : Nat × Nat, covers s c → img c.1 c.2 = s.color
  dims : ∀ s ∈ st.shapes, 0 < s.width ∧ 0 < s.height
  rootColor : ∀ s ∈ st.shapes, img s.x s.y = s.color ∧ ¬suppressed s.color
  count : ∀ c : Nat × Nat, st.shapes.countP (fun s => decide (covers s c)) ≤ 1
  procChar : ∀ c ∈ st.processed, ¬suppressed (img c.1 c.2) → ∃ s ∈ st.shapes, covers s c
  complete : ∀ q : Nat × Nat, q.1 < w → q.2 < h → q ∈ st.processed ∨ q ∈ todo
  order : ∀ s ∈ st.shapes, ∀ q ∈ todo, scanLT (s.x, s.y) q
  maxW : ∀ s ∈ st.shapes, s.x + s.width = w ∨ img (s.x + s.width) s.y ≠ s.color ∨
    (s.x + s.width, s.y) ∈ st.processed
  maxH : ∀ s ∈ st.shapes, s.y + s.height = h ∨ ∃ i < s.width,
    (img (s.x + i) (s.y + s.height) ≠ s.color ∨ (s.x + i, s.y + s.height) ∈ st.processed)
  mergeFree : ∀ A ∈ st.shapes, ∀ B ∈ st.shapes, A.color = B.color →
    ¬hcond A B ∧ ¬vcond A B
  todoSorted : todo.Pairwise scanLT
  todoGrid : ∀ q ∈ todo, q.1 < w ∧ q.2 < h

/-- Invariant at the start of the scan, before any cell is visited. -/
theorem scanInv_init (img : Nat → Nat → Pixel) (w h : Nat) :
    ScanInv img w h ⟨∅, []⟩ (scanOrder w h) where
  procGrid := by intro c hc; simp at hc
  covProc := by intro s hs; simp at hs
  covGrid := by intro s hs; simp at hs
  covColor := by intro s hs; simp at hs
  dims := by intro s hs; simp at hs
  rootColor := by intro s hs; simp at hs
  count := by intro c; simp
  procChar := by intro c hc; simp at hc
  complete := by
    intro q h1 h2
    exact Or.inr (mem_scanOrder.mpr ⟨h1, h2⟩)
  order := by intro s hs; simp at hs
  maxW := by intro s hs; simp at hs
  maxH := by intro s hs; simp at hs
  mergeFree := by intro A hA; simp at hA
  todoSorted := scanOrder_pairwise w h
  todoGrid := by
    intro q hq
    exact mem_scanOrder.mp hq

/-- One scan step preserves the invariant, consuming the head of the todo
list.  The `find_rectangle` branch always fires at an unclaimed,
non-suppressed seed, so the vertical/horizontal/single-pixel fallbacks are
dead code on this path. -/
theorem scanStep_inv (img : Nat → Nat → Pixel) (w h : Nat) (st : ScanState)
    (p : Nat × Nat) (todo' : List (Nat × Nat))
    (H : ScanInv img w h st (p :: todo')) :
    ScanInv img w h (scanStep img w h st p) todo' := by
  have hpgrid : p.1 < w ∧ p.2 < h := H.todoGrid p (List.mem_cons_self p todo')
  have hptodo : ∀ q ∈ todo', scanLT p q := by
    have := H.todoSorted
    rw [List.pairwise_cons] at this
    exact this.1
  have hsorted' : todo'.Pairwise scanLT := by
    have := H.todoSorted
    rw [List.pairwise_cons] at this
    exact this.2
  by_cases hp : p ∈ st.processed
  · have hstep : scanStep img w h st p = st := by
      unfold scanStep
      rw [if_pos hp]
    rw [hstep]
    exact { H with
      complete := by
        intro q h1 h2
        rcases H.complete q h1 h2 with hq | hq
        · exact Or.inl hq
        · rcases List.mem_cons.mp hq with rfl | hq
          · exact Or.inl hp
          · exact Or.inr hq
      order := fun s hs q hq => H.order s hs q (List.mem_cons_of_mem p hq)
      todoSorted := hsorted'
      todoGrid := fun q hq => H.todoGrid q (List.mem_cons_of_mem p hq) }
  by_cases hsup : suppressed (img p.1 p.2)
  · have hstep : scanStep img w h st p = { st with processed := insert p st.processed } := by
      unfold scanStep
      rw [if_neg hp, if_pos hsup]
    rw [hstep]
    exact {
      procGrid := by
        intro c hc
        rcases Finset.mem_insert.mp hc with rfl | hc
        · exact hpgrid
        · exact H.procGrid c hc
      covProc := fun s hs c hcov => Finset.mem_insert_of_mem (H.covProc s hs c hcov)
      covGrid := H.covGrid
      covColor := H.covColor
      dims := H.dims
      rootColor := H.rootColor
      count := H.count
      procChar := by
        intro c hc hnsup
        rcases Finset.mem_insert.mp hc with rfl | hc
        · exact absurd hsup hnsup
        · exact H.procChar c hc hnsup
      complete := by
        intro q h1 h2
        rcases H.complete q h1 h2 with hq | hq
        · exact Or.inl (Finset.mem_insert_of_mem hq)
        · rcases List.mem_cons.mp hq with rfl | hq
          · exact Or.inl (Finset.mem_insert_self q st.processed)
          · exact Or.inr hq
      order := fun s hs q hq => H.order s hs q (List.mem_cons_of_mem p hq)
      maxW := by
        intro s hs
        rcases H.maxW s hs with h' | h' | h'
        · exact Or.inl h'
        · exact Or.inr (Or.inl h')
        · exact Or.inr (Or.inr (Finset.mem_insert_of_mem h'))
      maxH := by
        intro s hs
        rcases H.maxH s hs with h' | ⟨i, hi, hcase⟩
        · exact Or.inl h'
        · rcases hcase with hne | hmem
          · exact Or.inr ⟨i, hi, Or.inl hne⟩
          · exact Or.inr ⟨i, hi, Or.inr (Finset.mem_insert_of_mem hmem)⟩
      mergeFree := H.mergeFree
      todoSorted := hsorted'
      todoGrid := fun q hq => H.todoGrid q (List.mem_cons_of_mem p hq) }
  · obtain ⟨r, hr, hrx, hry, hrc, hw0, hwle, hh0, hhle, hrow0, hrows, hcells, hstopW, hstopH⟩ :=
      find_rectangle_spec img p.1 p.2 (img p.1 p.2) w h st.processed hpgrid.1 hpgrid.2 hp rfl
    have hstep : scanStep img w h st p =
        { processed := st.processed ∪ blockCells r.x r.y r.width r.height,
          shapes := st.shapes ++ [r] } := by
      unfold scanStep
      rw [if_neg hp, if_neg hsup, hr]
    rw [hstep]
    exact {
      procGrid := by
        intro c hc
        rcases Finset.mem_union.mp hc with hc | hc
        · exact H.procGrid c hc
        · obtain ⟨h1, h2, h3, h4⟩ := covers_iff_mem_blockCells.mpr hc
          omega
      covProc := by
        intro s hs c hcov
        rcases List.mem_append.mp hs with hs | hs
        · exact Finset.mem_union_left _ (H.covProc s hs c hcov)
        · rw [List.mem_singleton] at hs
          subst hs
          exact Finset.mem_union_right _ (covers_iff_mem_blockCells.mp hcov)
      covGrid := by
        intro s hs c hcov
        rcases List.mem_append.mp hs with hs | hs
        · exact H.covGrid s hs c hcov
        · rw [List.mem_singleton] at hs
          subst hs
          obtain ⟨h1, h2, h3, h4⟩ := hcov
          omega
      covColor := by
        intro s hs c hcov
        rcases List.mem_append.mp hs with hs | hs
        · exact H.covColor s hs c hcov
        · rw [List.mem_singleton] at hs
          subst hs
          rw [hrc]
          exact (hcells c hcov).2
      dims := by
        intro s hs
        rcases List.mem_append.mp hs with hs | hs
        · exact H.dims s hs
        · rw [List.mem_singleton] at hs
          subst hs
          exact ⟨hw0, hh0⟩
      rootColor := by
        intro s hs
        rcases List.mem_append.mp hs with hs | hs
        · exact H.rootColor s hs
        · rw [List.mem_singleton] at hs
          subst hs
          constructor
          · rw [hrx, hry]
            exact hrc.symm
          · rw [hrc]
            exact hsup
      count := by
        intro c
        rw [List.countP_append]
        by_cases hcov : covers r c
        · have hc0 : st.shapes.countP (fun s => decide (covers s c)) = 0 := by
            rw [List.countP_eq_zero]
            intro s hs hcontra
            rw [decide_eq_true_iff] at hcontra
            exact (hcells c hcov).1 (H.covProc s hs c hcontra)
          rw [hc0]
          simp [hcov]
        · have hr0 : List.countP (fun s => decide (covers s c)) [r] = 0 := by
            simp [hcov]
          rw [hr0]
          simpa using H.count c
      procChar := by
        intro c hc hnsup
        rcases Finset.mem_union.mp hc with hc | hc
        · obtain ⟨s, hs, hcov⟩ := H.procChar c hc hnsup
          exact ⟨s, List.mem_append_left _ hs, hcov⟩
        · exact ⟨r, List.mem_append_right _ (List.mem_singleton_self r),
            covers_iff_mem_blockCells.mpr hc⟩
      complete := by
        intro q h1 h2
        rcases H.complete q h1 h2 with hq | hq
        · exact Or.inl (Finset.mem_union_left _ hq)
        · rcases List.mem_cons.mp hq with rfl | hq
          · refine Or.inl (Finset.mem_union_right _ (covers_iff_mem_blockCells.mp ?_))
            exact ⟨by omega, by omega, by omega, by omega⟩
          · exact Or.inr hq
      order := by
        intro s hs q hq
        rcases List.mem_append.mp hs with hs | hs
        · exact H.order s hs q (List.mem_cons_of_mem p hq)
        · rw [List.mem_singleton] at hs
          subst hs
          have hlt := hptodo q hq
          rw [hrx, hry]
          exact hlt
      maxW := by
        intro s hs
        rcases List.mem_append.mp hs with hs | hs
        · rcases H.maxW s hs with h' | h' | h'
          · exact Or.inl h'
          · exact Or.inr (Or.inl h')
          · exact Or.inr (Or.inr (Finset.mem_union_left _ h'))
        · rw [List.mem_singleton] at hs
          subst hs
          by_cases hlt : p.1 + s.width < w
          · rcases hstopW hlt with hmem | hne
            · refine Or.inr (Or.inr (Finset.mem_union_left _ ?_))
              rw [hrx, hry]
              exact hmem
            · refine Or.inr (Or.inl ?_)
              rw [hrx, hry, hrc]
              exact hne
          · exact Or.inl (by omega)
      maxH := by
        intro s hs
        rcases List.mem_append.mp hs with hs | hs
        · rcases H.maxH s hs with h' | ⟨i, hi, hcase⟩
          · exact Or.inl h'
          · rcases hcase with hne | hmem
            · exact Or.inr ⟨i, hi, Or.inl hne⟩
            · exact Or.inr ⟨i, hi, Or.inr (Finset.mem_union_left _ hmem)⟩
        · rw [List.mem_singleton] at hs
          subst hs
          by_cases hlt : p.2 + s.height < h
          · obtain ⟨i, hi, hcase⟩ := hstopH hlt
            refine Or.inr ⟨i, hi, ?_⟩
            rcases hcase with hmem | hne
            · refine Or.inr (Finset.mem_union_left _ ?_)
              rw [hrx, hry]
              exact hmem
            · refine Or.inl ?_
              rw [hrx, hry, hrc]
              exact hne
          · exact Or.inl (by omega)
      mergeFree := by
        intro A hA B hB hcolor
        rcases List.mem_append.mp hA with hA1 | hA1 <;>
          rcases List.mem_append.mp hB with hB1 | hB1
        · exact H.mergeFree A hA1 B hB1 hcolor
        · rw [List.mem_singleton] at hB1
          subst hB1
          constructor
          · rintro ⟨hy, hxw⟩
            rcases H.maxW A hA1 with h' | h' | h'
            · omega
            · apply h'
              rw [hxw, hy, hrx, hry, hcolor, hrc]
            · rw [hxw, hy, hrx, hry] at h'
              exact hp h'
          · rintro ⟨hx', hwid, hyh⟩
            rcases H.maxH A hA1 with h' | ⟨i, hi, hcase⟩
            · omega
            · rcases hcase with hne | hmem
              · apply hne
                rw [hx', hyh, hrx, hry, hcolor, hrc]
                exact (hrow0 i (by omega)).2
              · rw [hx', hyh, hrx, hry] at hmem
                exact (hrow0 i (by omega)).1 hmem
        · rw [List.mem_singleton] at hA1
          subst hA1
          have hord : B.y < p.2 ∨ (B.y = p.2 ∧ B.x < p.1) :=
            H.order B hB1 p (List.mem_cons_self p todo')
          constructor
          · rintro ⟨hy, hxw⟩
            omega
          · rintro ⟨hx', hwid, hyh⟩
            omega
        · rw [List.mem_singleton] at hA1 hB1
          subst hA1
          subst hB1
          constructor
          · rintro ⟨hy, hxw⟩
            omega
          · rintro ⟨hx', hwid, hyh⟩
            omega
      todoSorted := hsorted'
      todoGrid := fun q hq => H.todoGrid q (List.mem_cons_of_mem p hq) }

/-- Folding the step over any todo list preserves the invariant down to an
empty todo list. -/
theorem scanFold_inv (img : Nat → Nat → Pixel) (w h : Nat) :
    ∀ (todo : List (Nat × Nat)) (st : ScanState), ScanInv img w h st todo →
      ScanInv img w h (todo.foldl (scanStep img w h) st) [] := by
  intro todo
  induction todo with
  | nil =>
    intro st H
    simpa using H
  | cons p todo' ih =>
    intro st H
    rw [List.foldl_cons]
    exact ih (scanStep img w h st p) (scanStep_inv img w h st p todo' H)

/-- Invariant of the completed tiling scan. -/
theorem scanGrid_inv (img : Nat → Nat → Pixel) (w h : Nat) :
    ScanInv img w h (scanGrid img w h) [] :=
  scanFold_inv img w h (scanOrder w h) ⟨∅, []⟩ (scanInv_init img w h)

/-- When no two members of a group satisfy a merge condition, the merge
fold of `optimize_shapes` pushes every shape unchanged. -/
theorem foldl_mergeStep_eq (g : List PixelGroup)
    (H : ∀ a ∈ g, ∀ b ∈ g, ¬hcond a b ∧ ¬vcond a b) :
    ∀ (rest acc : List PixelGroup), (∀ a ∈ acc, a ∈ g) → (∀ b ∈ rest, b ∈ g) →
      rest.foldl mergeStep acc = rest.reverse ++ acc := by
  intro rest
  induction rest with
  | nil =>
    intro acc _ _
    simp
  | cons s rest' ih =>
    intro acc hacc hrest
    rw [List.foldl_cons]
    have hs : s ∈ g := hrest s (List.mem_cons_self s rest')
    cases acc with
    | nil =>
      have hm : mergeStep [] s = [s] := rfl
      rw [hm, ih [s] ?_ (fun b hb => hrest b (List.mem_cons_of_mem s hb))]
      · simp
      · intro a ha
        rw [List.mem_singleton] at ha
        subst ha
        exact hs
    | cons last racc =>
      have hlast : last ∈ g := hacc last (List.mem_cons_self last racc)
      have hm : mergeStep (last :: racc) s = s :: last :: racc := by
        simp only [mergeStep]
        rw [if_neg (H last hlast s hs).1, if_neg (H last hlast s hs).2]
      rw [hm, ih (s :: last :: racc) ?_ (fun b hb => hrest b (List.mem_cons_of_mem s hb))]
      · simp
      · intro a ha
        rcases List.mem_cons.mp ha with rfl | ha
        · exact hs
        · exact hacc a ha

/-- Merge fold as the identity on a merge-free group. -/
theorem mergeGroup_eq_self (g : List PixelGroup)
    (H : ∀ a ∈ g, ∀ b ∈ g, ¬hcond a b ∧ ¬vcond a b) : mergeGroup g = g := by
  unfold mergeGroup
  rw [foldl_mergeStep_eq g H g [] (by simp) (fun b hb => hb)]
  simp

theorem flatMapCongr {α β : Type} (f g : α → List β) :
    ∀ ks : List α, (∀ c ∈ ks, f c = g c) → ks.flatMap f = ks.flatMap g := by
  intro ks
  induction ks with
  | nil => intro _; rfl
  | cons k ks' ih =>
    intro hfg
    rw [List.flatMap_cons, List.flatMap_cons, hfg k (List.mem_cons_self k ks'),
      ih (fun c hc => hfg c (List.mem_cons_of_mem k hc))]

theorem flatMapPerm {α β : Type} (f g : α → List β) :
    ∀ ks : List α, (∀ c ∈ ks, (f c).Perm (g c)) → (ks.flatMap f).Perm (ks.flatMap g) := by
  intro ks
  induction ks with
  | nil => intro _; simp
  | cons k ks' ih =>
    intro hfg
    rw [List.flatMap_cons, List.flatMap_cons]
    exact (hfg k (List.mem_cons_self k ks')).append
      (ih (fun c hc => hfg c (List.mem_cons_of_mem k hc)))

theorem colorKeys_mono (x : Pixel) :
    ∀ (l : List PixelGroup) (ks : List Pixel), x ∈ ks →
      x ∈ l.foldl (fun ks s => if s.color ∈ ks then ks else ks ++ [s.color]) ks := by
  intro l
  induction l with
  | nil => intro ks hx; simpa using hx
  | cons s l' ih =>
    intro ks hx
    rw [List.foldl_cons]
    apply ih
    by_cases hc : s.color ∈ ks
    · rw [if_pos hc]; exact hx
    · rw [if_neg hc]; exact List.mem_append_left _ hx

/-- Every shape's color occurs among the first-seen color keys. -/
theorem colorKeys_complete (l : List PixelGroup) :
    ∀ s ∈ l, s.color ∈ colorKeys l := by
  unfold colorKeys
  suffices hgen : ∀ (l' : List PixelGroup) (ks : List Pixel), ∀ s ∈ l',
      s.color ∈ l'.foldl (fun ks s => if s.color ∈ ks then ks else ks ++ [s.color]) ks by
    intro s hs
    exact hgen l [] s hs
  intro l'
  induction l' with
  | nil => intro ks s hs; simp at hs
  | cons t l'' ih =>
    intro ks s hs
    rw [List.foldl_cons]
    rcases List.mem_cons.mp hs with rfl | hs
    · apply colorKeys_mono
      by_cases hc : s.color ∈ ks
      · rw [if_pos hc]; exact hc
      · rw [if_neg hc]; exact List.mem_append_right _ (List.mem_singleton_self _)
    · exact ih _ s hs

/-- The first-seen color keys are pairwise distinct. -/
theorem colorKeys_nodup (l : List PixelGroup) : (colorKeys l).Nodup := by
  unfold colorKeys
  suffices hgen : ∀ (l' : List PixelGroup) (ks : List Pixel), ks.Nodup →
      (l'.foldl (fun ks s => if s.color ∈ ks then ks else ks ++ [s.color]) ks).Nodup by
    exact hgen l [] List.nodup_nil
  intro l'
  induction l' with
  | nil => intro ks hks; simpa using hks
  | cons t l'' ih =>
    intro ks hks
    rw [List.foldl_cons]
    apply ih
    by_cases hc : t.color ∈ ks
    · rw [if_pos hc]; exact hks
    · rw [if_neg hc]
      simp [List.nodup_append, hks, hc]

/-- Concatenating the per-color groups over distinct, complete keys is a
permutation of the original list. -/
theorem flatMap_groupOf_perm (ks : List Pixel) :
    ∀ l : List PixelGroup, ks.Nodup → (∀ s ∈ l, s.color ∈ ks) →
      (ks.flatMap (fun c => groupOf l c)).Perm l := by
  induction ks with
  | nil =>
    intro l _ hl
    have hnil : l = [] := by
      cases l with
      | nil => rfl
      | cons s l' => exact absurd (hl s (List.mem_cons_self s l')) (List.not_mem_nil _)
    rw [hnil]
    simp
  | cons k ks' ih =>
    intro l hnd hl
    have hnd' : ks'.Nodup := (List.nodup_cons.mp hnd).2
    have hk : k ∉ ks' := (List.nodup_cons.mp hnd).1
    rw [List.flatMap_cons]
    have hcong : ∀ c ∈ ks', groupOf l c =
        groupOf (l.filter (fun s => !decide (s.color = k))) c := by
      intro c hc
      unfold groupOf
      rw [List.filter_filter]
      apply List.filter_congr
      intro s _
      by_cases hsc : s.color = c
      · have hck : ¬c = k := by
          rintro rfl
          exact hk hc
        simp [hsc, hck]
      · simp [hsc]
    rw [flatMapCongr _ _ ks' hcong]
    have hl' : ∀ s ∈ l.filter (fun s => !decide (s.color = k)), s.color ∈ ks' := by
      intro s hs
      obtain ⟨hsl, hsk⟩ := List.mem_filter.mp hs
      rcases List.mem_cons.mp (hl s hsl) with hck | hck
      · rw [Bool.not_eq_eq_eq_not] at hsk
        simp [hck] at hsk
      · exact hck
    have hperm := ih (l.filter (fun s => !decide (s.color = k))) hnd' hl'
    have step1 : (groupOf l k ++
        ks'.flatMap (fun c => groupOf (l.filter (fun s => !decide (s.color = k))) c)).Perm
        (groupOf l k ++ l.filter (fun s => !decide (s.color = k))) :=
      hperm.append_left _
    have step2 : (groupOf l k ++ l.filter (fun s => !decide (s.color = k))).Perm l := by
      unfold groupOf
      exact List.filter_append_perm _ l
    exact step1.trans step2

/-- With no mergeable pair among the shapes, `optimize_shapes` only
regroups by color and sorts each group by (y, x). -/
theorem optimize_shapes_eq (l : List PixelGroup)
    (H : ∀ a ∈ l, ∀ b ∈ l, a.color = b.color → ¬hcond a b ∧ ¬vcond a b) :
    optimize_shapes l =
      (colorKeys l).flatMap (fun c => List.insertionSort shapeLE (groupOf l c)) := by
  unfold optimize_shapes
  apply flatMapCongr
  intro c _
  apply mergeGroup_eq_self
  intro a ha b hb
  have ha' : a ∈ groupOf l c := ((List.perm_insertionSort shapeLE _).mem_iff).mp ha
  have hb' : b ∈ groupOf l c := ((List.perm_insertionSort shapeLE _).mem_iff).mp hb
  obtain ⟨hal, hac⟩ := List.mem_filter.mp ha'
  obtain ⟨hbl, hbc⟩ := List.mem_filter.mp hb'
  rw [decide_eq_true_iff] at hac hbc
  exact H a hal b hbl (by rw [hac, hbc])

/-- On a merge-free list, `optimize_shapes` permutes the input. -/
theorem optimize_shapes_perm (l : List PixelGroup)
    (H : ∀ a ∈ l, ∀ b ∈ l, a.color = b.color → ¬hcond a b ∧ ¬vcond a b) :
    (optimize_shapes l).Perm l := by
  rw [optimize_shapes_eq l H]
  exact (flatMapPerm _ _ (colorKeys l)
    (fun c _ => List.perm_insertionSort shapeLE (groupOf l c))).trans
    (flatMap_groupOf_perm (colorKeys l) l (colorKeys_nodup l) (colorKeys_complete l))

/-- Sample pixels and grids used by the witnesses. -/
def whitePix : Pixel := ⟨255, 255, 255, 255⟩

/-- All-white grid. -/
def imgWhite : Nat → Nat → Pixel := fun _ _ => whitePix

/-- Claim C1: in the final (post-merge) shape list, every in-grid cell is
covered exactly once if its pixel is not suppressed and zero times if it
is, and no out-of-grid cell is covered: the shapes together with the
suppressed cells partition the width × height grid with no overlap and no
gaps. -/
theorem C1_partition (img : Nat → Nat → Pixel) (w h x y : Nat) :
    (x < w → y < h →
      (optimize_shapes (scanGrid img w h).shapes).countP
          (fun s => decide (covers s (x, y))) =
        if suppressed (img x y) then 0 else 1) ∧
    (¬(x < w ∧ y < h) →
      (optimize_shapes (scanGrid img w h).shapes).countP
          (fun s => decide (covers s (x, y))) = 0) := by
  have I := scanGrid_inv img w h
  have hperm := optimize_shapes_perm _ I.mergeFree
  have hcnt := hperm.countP_eq (fun s => decide (covers s (x, y)))
  constructor
  · intro hx hy
    rw [hcnt]
    by_cases hsup : suppressed (img x y)
    · rw [if_pos hsup, List.countP_eq_zero]
      intro s hs hcov
      rw [decide_eq_true_iff] at hcov
      have hcol := I.covColor s hs (x, y) hcov
      have hroot := (I.rootColor s hs).2
      rw [hcol] at hsup
      exact absurd hsup hroot
    · rw [if_neg hsup]
      have hproc : (x, y) ∈ (scanGrid img w h).processed := by
        rcases I.complete (x, y) hx hy with hmem | hmem
        · exact hmem
        · exact absurd hmem (List.not_mem_nil _)
      obtain ⟨s, hs, hcov⟩ := I.procChar (x, y) hproc hsup
      have h1 : 0 < (scanGrid img w h).shapes.countP (fun s => decide (covers s (x, y))) :=
        List.countP_pos_iff.mpr ⟨s, hs, decide_eq_true_iff.mpr hcov⟩
      have h2 := I.count (x, y)
      omega
  · intro hxy
    rw [hcnt, List.countP_eq_zero]
    intro s hs hcov
    rw [decide_eq_true_iff] at hcov
    have hgrid := I.covGrid s hs (x, y) hcov
    exact hxy ⟨hgrid.1, hgrid.2⟩

/-- Witness for C1 on a concrete 2 × 1 white grid at cell (0, 0). -/
theorem C1_partition_witness :
    (optimize_shapes (scanGrid imgWhite 2 1).shapes).countP
        (fun s => decide (covers s (0, 0))) =
      if suppressed (imgWhite 0 0) then 0 else 1 :=
  (C1_partition imgWhite 2 1 0 0).1 (by decide) (by decide)

/-- Claim C2: at an unclaimed, matching, in-grid seed (x, y) the Rectangle
Extractor returns the shape whose width equals the maximal horizontal run
of identical unclaimed color at the seed, and whose height is 1 plus the
number of consecutive subsequent rows whose cells x .. x+width-1 are all
unclaimed and matching; it stops at the first row whose capped run is
shorter than the width, never shrinking the width. -/
theorem C2_rectangle (img : Nat → Nat → Pixel) (x y : Nat) (color : Pixel)
    (w h : Nat) (processed : Finset (Nat × Nat))
    (hx : x < w) (hy : y < h) (hp : (x, y) ∉ processed) (hc : img x y = color) :
    ∃ r, find_rectangle img x y color w h processed = some r ∧
      r.x = x ∧ r.y = y ∧ r.color = color ∧ 0 < r.width ∧ 0 < r.height ∧
      (∀ i < r.width, x + i < w ∧ (x + i, y) ∉ processed ∧ img (x + i) y = color) ∧
      (x + r.width < w → ((x + r.width, y) ∈ processed ∨ img (x + r.width) y ≠ color)) ∧
      (∀ j, 0 < j → j < r.height → y + j < h ∧ ∀ i < r.width,
          (x + i, y + j) ∉ processed ∧ img (x + i) (y + j) = color) ∧
      (y + r.height < h → ∃ i < r.width,
          ((x + i, y + r.height) ∈ processed ∨ img (x + i) (y + r.height) ≠ color)) := by
  obtain ⟨r, hr, hrx, hry, hrc, hw0, hwle, hh0, hhle, hrow0, hrows, hcells, hstopW, hstopH⟩ :=
    find_rectangle_spec img x y color w h processed hx hy hp hc
  refine ⟨r, hr, hrx, hry, hrc, hw0, hh0, ?_, hstopW, ?_, hstopH⟩
  · intro i hi
    exact ⟨by omega, hrow0 i hi⟩
  · intro j hj0 hjh
    exact ⟨by omega, hrows j hj0 hjh⟩

/-- Witness for C2 on a concrete 2 × 2 white grid with an empty mask. -/
theorem C2_rectangle_witness :
    ∃ r, find_rectangle imgWhite 0 0 whitePix 2 2 ∅ = some r ∧
      r.x = 0 ∧ r.y = 0 ∧ r.color = whitePix ∧ 0 < r.width ∧ 0 < r.height ∧
      (∀ i < r.width, 0 + i < 2 ∧ (0 + i, 0) ∉ (∅ : Finset (Nat × Nat)) ∧
        imgWhite (0 + i) 0 = whitePix) ∧
      (0 + r.width < 2 → ((0 + r.width, 0) ∈ (∅ : Finset (Nat × Nat)) ∨
        imgWhite (0 + r.width) 0 ≠ whitePix)) ∧
      (∀ j, 0 < j → j < r.height → 0 + j < 2 ∧ ∀ i < r.width,
          (0 + i, 0 + j) ∉ (∅ : Finset (Nat × Nat)) ∧ imgWhite (0 + i) (0 + j) = whitePix) ∧
      (0 + r.height < 2 → ∃ i < r.width,
          ((0 + i, 0 + r.height) ∈ (∅ : Finset (Nat × Nat)) ∨
            imgWhite (0 + i) (0 + r.height) ≠ whitePix)) :=
  C2_rectangle imgWhite 0 0 whitePix 2 2 ∅ (by decide) (by decide) (by decide) (by decide)

/-- Claim C3: two same-color shapes where the first's right edge exactly
touches the second's left edge at equal y (and equal height) merge into a
single shape whose width is the sum, with no separate entries left; and in
general the merge fold turns the previous entry L into the width-sum merge
of L and the incoming shape exactly when L.y = shape.y and
L.x + L.width = shape.x. -/
theorem C3_merge (s1 s2 : PixelGroup)
    (hcolor : s1.color = s2.color) (hwpos : 0 < s1.width) (hhgt : s1.height = s2.height)
    (hy : s1.y = s2.y) (hxw : s1.x + s1.width = s2.x) :
    optimize_shapes [s1, s2] = [{ s1 with width := s1.width + s2.width }] ∧
    (∀ (L shape : PixelGroup) (rest : List PixelGroup), 0 < shape.width →
      (mergeStep (L :: rest) shape = { L with width := L.width + shape.width } :: rest ↔
        L.y = shape.y ∧ L.x + L.width = shape.x)) := by
  constructor
  · have hkeys : colorKeys [s1, s2] = [s1.color] := by
      unfold colorKeys
      simp [← hcolor]
    have hgroup : groupOf [s1, s2] s1.color = [s1, s2] := by
      unfold groupOf
      simp [← hcolor]
    have hle : shapeLE s1 s2 := Or.inr ⟨hy, by omega⟩
    have hsort : List.insertionSort shapeLE (groupOf [s1, s2] s1.color) = [s1, s2] := by
      rw [hgroup]
      simp [List.insertionSort, List.orderedInsert, hle]
    have hc : hcond s1 s2 := ⟨hy, hxw⟩
    have hmerge : mergeGroup [s1, s2] = [{ s1 with width := s1.width + s2.width }] := by
      unfold mergeGroup
      simp [List.foldl_cons, mergeStep, hc]
    unfold optimize_shapes
    rw [hkeys, List.flatMap_cons, List.flatMap_nil, List.append_nil, hsort, hmerge]
  · intro L shape rest hpos
    constructor
    · intro heq
      by_cases hcLs : hcond L shape
      · exact hcLs
      · exfalso
        by_cases hvLs : vcond L shape
        · simp only [mergeStep, if_neg hcLs, if_pos hvLs] at heq
          injection heq with h1 h2
          have hw := congrArg PixelGroup.width h1
          simp only at hw
          omega
        · simp only [mergeStep, if_neg hcLs, if_neg hvLs] at heq
          injection heq with h1 h2
          have := congrArg List.length h2
          simp at this
    · intro hcLs
      simp only [mergeStep, if_pos (show hcond L shape from hcLs)]

/-- Witness for C3 on two concrete touching white shapes. -/
theorem C3_merge_witness :
    optimize_shapes [⟨0, 0, 1, 1, whitePix⟩, ⟨1, 0, 2, 1, whitePix⟩] =
        [⟨0, 0, 3, 1, whitePix⟩] ∧
    (∀ (L shape : PixelGroup) (rest : List PixelGroup), 0 < shape.width →
      (mergeStep (L :: rest) shape = { L with width := L.width + shape.width } :: rest ↔
        L.y = shape.y ∧ L.x + L.width = shape.x)) :=
  C3_merge ⟨0, 0, 1, 1, whitePix⟩ ⟨1, 0, 2, 1, whitePix⟩ (by decide) (by decide) (by decide)
    (by decide) (by decide)

/-- Pure black opaque pixel. -/
def blackPix : Pixel := ⟨0, 0, 0, 255⟩

/-- Grid with a black pixel in column 0 and white elsewhere. -/
def imgBW : Nat → Nat → Pixel := fun x _ => if x = 0 then blackPix else whitePix

/-- Pixel with an out-of-range red channel. -/
def badPixel : Pixel := ⟨300, 10, 10, 255⟩

/-- Grid of out-of-range pixels. -/
def imgBad : Nat → Nat → Pixel := fun _ _ => badPixel

/-- Claim C4: every shape of the final emitted (post-merge) output has a
color equal to the source pixel color at every cell the shape covers,
component-wise exactly, also after the merge pass. -/
theorem C4_color_fidelity (img : Nat → Nat → Pixel) (w h : Nat) :
    ∀ s ∈ optimize_shapes (scanGrid img w h).shapes, ∀ c : Nat × Nat,
      covers s c → img c.1 c.2 = s.color := by
  intro s hs c hcov
  have I := scanGrid_inv img w h
  have hperm := optimize_shapes_perm _ I.mergeFree
  exact I.covColor s (hperm.mem_iff.mp hs) c hcov

/-- Witness for C4 on the 2 × 1 white grid. -/
theorem C4_color_fidelity_witness :
    imgWhite 1 0 = (⟨0, 0, 2, 1, whitePix⟩ : PixelGroup).color :=
  C4_color_fidelity imgWhite 2 1 ⟨0, 0, 2, 1, whitePix⟩ (by decide) (1, 0) (by decide)

/-- Claim C5: a pixel whose alpha is 0 or whose R, G, B are all 0 is
covered by no emitted shape, and when the scan reaches such an unclaimed
cell as a seed it marks it claimed and emits no shape. -/
theorem C5_suppression (img : Nat → Nat → Pixel) (w h x y : Nat) :
    (suppressed (img x y) →
      ∀ s ∈ optimize_shapes (scanGrid img w h).shapes, ¬covers s (x, y)) ∧
    (∀ st : ScanState, (x, y) ∉ st.processed → suppressed (img x y) →
      scanStep img w h st (x, y) = { st with processed := insert (x, y) st.processed }) := by
  constructor
  · intro hsup s hs hcov
    have I := scanGrid_inv img w h
    have hperm := optimize_shapes_perm _ I.mergeFree
    have hs' := hperm.mem_iff.mp hs
    have hcol := I.covColor s hs' (x, y) hcov
    have hroot := (I.rootColor s hs').2
    rw [hcol] at hsup
    exact hroot hsup
  · intro st hp hsup
    unfold scanStep
    rw [if_neg hp, if_pos hsup]

/-- Witness for C5 on a 2 × 1 grid with a black pixel at (0, 0). -/
theorem C5_suppression_witness :
    (∀ s ∈ optimize_shapes (scanGrid imgBW 2 1).shapes, ¬covers s (0, 0)) ∧
    scanStep imgBW 2 1 ⟨∅, []⟩ (0, 0) = ⟨insert (0, 0) ∅, []⟩ :=
  ⟨(C5_suppression imgBW 2 1 0 0).1 (by decide),
    (C5_suppression imgBW 2 1 0 0).2 ⟨∅, []⟩ (by decide) (by decide)⟩

/-- Claim C6 counterexample: on the 2 × 1 all-white grid the emitted path
data string is "M 0 0 h 2 v 1 h -2z" — the closepath z is appended with no
separating space — which differs from the claimed
"M 0 0 h 2 v 1 h -2 z". -/
theorem C6_counterexample :
    (convert_png_to_svg imgWhite 2 1).paths.map PathElem.d = ["M 0 0 h 2 v 1 h -2z"] ∧
    "M 0 0 h 2 v 1 h -2z" ≠ "M 0 0 h 2 v 1 h -2 z" :=
  ⟨by decide, by decide⟩

/-- Claim C6 (amended): the 2 × 1 all-white grid yields exactly one shape
(0, 0, 2, 1, white) whose path data is "M 0 0 h 2 v 1 h -2z" (no space
before the final z), with fill "#ffffff" and no opacity attribute. -/
theorem C6_scenario :
    optimize_shapes (scanGrid imgWhite 2 1).shapes = [⟨0, 0, 2, 1, whitePix⟩] ∧
    convert_png_to_svg imgWhite 2 1 =
      { header := "<svg xmlns=\"http://www.w3.org/2000/svg\" viewBox=\"0 0 2 1\">",
        paths := [{ d := "M 0 0 h 2 v 1 h -2z", fill := "#ffffff", opacityNum := none }] } :=
  ⟨by decide, by decide⟩

/-- Claim C7 counterexample: a 1 × 1 grid whose pixel has an out-of-range
red channel (300) is not rejected: the scan emits a shape carrying that
color, and the output contains a path element. -/
theorem C7_counterexample :
    255 < badPixel.r ∧
    (scanGrid imgBad 1 1).shapes = [⟨0, 0, 1, 1, badPixel⟩] ∧
    (convert_png_to_svg imgBad 1 1).paths ≠ [] := by
  refine ⟨by decide, by decide, by decide⟩

/-- Claim C7 (amended): the conversion performs no validation of the
grid: every grid, also one with out-of-range channel values, is scanned
normally, and each emitted shape's color is a pixel read verbatim from
the grid (never clamped or modified). -/
theorem C7_no_validation (img : Nat → Nat → Pixel) (w h : Nat) :
    ∀ s ∈ (scanGrid img w h).shapes, ∃ x y, x < w ∧ y < h ∧ img x y = s.color := by
  intro s hs
  have I := scanGrid_inv img w h
  have hroot := (I.rootColor s hs).1
  have hdims := I.dims s hs
  have hcov : covers s (s.x, s.y) := ⟨le_refl _, by omega, le_refl _, by omega⟩
  have hgrid := I.covGrid s hs (s.x, s.y) hcov
  exact ⟨s.x, s.y, hgrid.1, hgrid.2, hroot⟩

/-- Witness for the amended C7 on the out-of-range 1 × 1 grid. -/
theorem C7_no_validation_witness :
    ∃ x y, x < 1 ∧ y < 1 ∧ imgBad x y = (⟨0, 0, 1, 1, badPixel⟩ : PixelGroup).color :=
  C7_no_validation imgBad 1 1 ⟨0, 0, 1, 1, badPixel⟩ (by decide)

/-- Claim C8: the degenerate 0 × 0 grid converts without error into an
empty shape list and a document whose viewBox is "0 0 0 0" with no path
elements. -/
theorem C8_degenerate (img : Nat → Nat → Pixel) :
    (scanGrid img 0 0).shapes = [] ∧
    optimize_shapes (scanGrid img 0 0).shapes = [] ∧
    convert_png_to_svg img 0 0 =
      { header := "<svg xmlns=\"http://www.w3.org/2000/svg\" viewBox=\"0 0 0 0\">",
        paths := [] } :=
  ⟨rfl, rfl, rfl⟩

/-- Claim C10: on the scanner's output the merger fires neither merge
branch — no two same-color scanner shapes satisfy the horizontal or
vertical merge condition — so `optimize_shapes` only regroups the shapes
by color in first-seen order and sorts each group by (y, x): its output is
a permutation of the scanner's shapes with x, y, width, height and color
unchanged. -/
theorem C10_merge_noop (img : Nat → Nat → Pixel) (w h : Nat) :
    (∀ A ∈ (scanGrid img w h).shapes, ∀ B ∈ (scanGrid img w h).shapes,
      A.color = B.color → ¬hcond A B ∧ ¬vcond A B) ∧
    optimize_shapes (scanGrid img w h).shapes =
      (colorKeys (scanGrid img w h).shapes).flatMap
        (fun c => List.insertionSort shapeLE (groupOf (scanGrid img w h).shapes c)) ∧
    (optimize_shapes (scanGrid img w h).shapes).Perm (scanGrid img w h).shapes :=
  ⟨(scanGrid_inv img w h).mergeFree,
    optimize_shapes_eq _ (scanGrid_inv img w h).mergeFree,
    optimize_shapes_perm _ (scanGrid_inv img w h).mergeFree⟩

/-- Each scan step only grows the claimed mask. -/
theorem scanStep_processed_mono (img : Nat → Nat → Pixel) (w h : Nat)
    (st : ScanState) (p : Nat × Nat) :
    st.processed ⊆ (scanStep img w h st p).processed := by
  unfold scanStep
  by_cases hp : p ∈ st.processed
  · rw [if_pos hp]
  · rw [if_neg hp]
    by_cases hsup : suppressed (img p.1 p.2)
    · rw [if_pos hsup]
      exact Finset.subset_insert p st.processed
    · rw [if_neg hsup]
      rcases hfr : find_rectangle img p.1 p.2 (img p.1 p.2) w h st.processed with _ | r
      · by_cases hv : 1 < find_vertical_line img p.1 p.2 (img p.1 p.2) h st.processed
        · rw [if_pos hv]
          exact Finset.subset_union_left
        · rw [if_neg hv]
          by_cases hh : 1 < find_horizontal_line img p.1 p.2 (img p.1 p.2) w st.processed
          · rw [if_pos hh]
            exact Finset.subset_union_left
          · rw [if_neg hh]
            exact Finset.subset_insert p st.processed
      · exact Finset.subset_union_left

theorem scanUpTo_succ (img : Nat → Nat → Pixel) (w h n : Nat)
    (hn : n < (scanOrder w h).length) :
    scanUpTo img w h (n + 1) = scanStep img w h (scanUpTo img w h n) (scanPos w n) := by
  unfold scanUpTo
  rw [List.take_succ, List.getElem?_eq_getElem hn, scanOrder_getElem w h n hn,
    List.foldl_append]
  rfl

theorem scanUpTo_stable (img : Nat → Nat → Pixel) (w h n : Nat)
    (hn : (scanOrder w h).length ≤ n) :
    scanUpTo img w h n = scanGrid img w h := by
  unfold scanUpTo scanGrid
  rw [List.take_of_length_le hn]

/-- Prefix monotonicity of the claimed mask over the whole scan. -/
theorem scanUpTo_mono (img : Nat → Nat → Pixel) (w h : Nat) :
    ∀ n m : Nat, n ≤ m →
      (scanUpTo img w h n).processed ⊆ (scanUpTo img w h m).processed := by
  intro n m hnm
  induction m with
  | zero =>
    have hn0 : n = 0 := by omega
    subst hn0
    exact Finset.Subset.refl _
  | succ m' ih =>
    rcases Nat.eq_or_lt_of_le hnm with rfl | hlt
    · exact Finset.Subset.refl _
    · have hsub := ih (by omega)
      by_cases hm : m' < (scanOrder w h).length
      · rw [scanUpTo_succ img w h m' hm]
        exact hsub.trans (scanStep_processed_mono img w h _ _)
      · have heq : scanUpTo img w h (m' + 1) = scanUpTo img w h m' := by
          unfold scanUpTo
          rw [List.take_of_length_le (by omega), List.take_of_length_le (by omega)]
        rw [heq]
        exact hsub

/-- Anchoring of the shape returned by `find_rectangle`. -/
theorem find_rectangle_root {img : Nat → Nat → Pixel} {x y : Nat} {color : Pixel}
    {w h : Nat} {processed : Finset (Nat × Nat)} {r : PixelGroup}
    (hfr : find_rectangle img x y color w h processed = some r) :
    r.x = x ∧ r.y = y := by
  simp only [find_rectangle] at hfr
  split at hfr
  · exact absurd hfr (by simp)
  · have hr := Option.some.inj hfr
    rw [← hr]
    exact ⟨rfl, rfl⟩
/-- A cell newly claimed by one scan step at an in-grid position is either
the visited position itself or lies inside the single shape emitted at
that step, anchored at the visited position. -/
theorem scanStep_flip (img : Nat → Nat → Pixel) (w h : Nat) (st : ScanState)
    (p c : Nat × Nat) (hpw : p.1 < w) (hph : p.2 < h) (hc1 : c ∉ st.processed)
    (hc2 : c ∈ (scanStep img w h st p).processed) :
    c = p ∨ ∃ s : PixelGroup, (scanStep img w h st p).shapes = st.shapes ++ [s] ∧
      covers s c ∧ s.x = p.1 ∧ s.y = p.2 := by
  by_cases hp : p ∈ st.processed
  · have hstep : scanStep img w h st p = st := by
      unfold scanStep
      rw [if_pos hp]
    rw [hstep] at hc2
    exact absurd hc2 hc1
  · by_cases hsup : suppressed (img p.1 p.2)
    · have hstep : scanStep img w h st p = { st with processed := insert p st.processed } := by
        unfold scanStep
        rw [if_neg hp, if_pos hsup]
      rw [hstep] at hc2
      rcases Finset.mem_insert.mp hc2 with rfl | hmem
      · exact Or.inl rfl
      · exact absurd hmem hc1
    · obtain ⟨r, hr, hrx, hry, _, _, _, _, _, _, _, _, _, _⟩ :=
        find_rectangle_spec img p.1 p.2 (img p.1 p.2) w h st.processed hpw hph hp rfl
      have hstep : scanStep img w h st p =
          { processed := st.processed ∪ blockCells r.x r.y r.width r.height,
            shapes := st.shapes ++ [r] } := by
        unfold scanStep
        rw [if_neg hp, if_neg hsup, hr]
      rw [hstep] at hc2 ⊢
      rcases Finset.mem_union.mp hc2 with hmem | hmem
      · exact absurd hmem hc1
      · exact Or.inr ⟨r, rfl, covers_iff_mem_blockCells.mpr hmem, hrx, hry⟩

/-- Claim C9: the claimed mask is monotone over the whole scan — an entry
once set true is never reset — and every grid cell flips from false to
true at exactly one step: at that step the cell either is the scanned
position itself or is covered by the shape emitted there, whose anchor is
the scanned seed, at or before the cell in row-major order. -/
theorem C9_mask_monotone (img : Nat → Nat → Pixel) (w h : Nat) :
    (∀ n m : Nat, n ≤ m →
      (scanUpTo img w h n).processed ⊆ (scanUpTo img w h m).processed) ∧
    (∀ c : Nat × Nat, c.1 < w → c.2 < h →
      (∃! n : Nat, c ∉ (scanUpTo img w h n).processed ∧
        c ∈ (scanUpTo img w h (n + 1)).processed) ∧
      (∀ n : Nat, c ∉ (scanUpTo img w h n).processed →
          c ∈ (scanUpTo img w h (n + 1)).processed →
        n < h * w ∧
        (c = scanPos w n ∨ ∃ s : PixelGroup,
          (scanUpTo img w h (n + 1)).shapes = (scanUpTo img w h n).shapes ++ [s] ∧
          covers s c ∧ s.x = (scanPos w n).1 ∧ s.y = (scanPos w n).2 ∧
          scanLE (s.x, s.y) c))) := by
  have hmono := scanUpTo_mono img w h
  refine ⟨hmono, ?_⟩
  intro c hcw hch
  have hfin : c ∈ (scanUpTo img w h ((scanOrder w h).length)).processed := by
    rw [scanUpTo_stable img w h _ (le_refl _)]
    have I := scanGrid_inv img w h
    rcases I.complete c hcw hch with hmem | hmem
    · exact hmem
    · exact absurd hmem (List.not_mem_nil _)
  have hex : ∃ n, c ∈ (scanUpTo img w h n).processed := ⟨_, hfin⟩
  have hfind := Nat.find_spec hex
  have hne : Nat.find hex ≠ 0 := by
    intro h0
    rw [h0] at hfind
    simp [scanUpTo] at hfind
  obtain ⟨m, hm⟩ : ∃ m, Nat.find hex = m + 1 := ⟨Nat.find hex - 1, by omega⟩
  have hflip1 : c ∉ (scanUpTo img w h m).processed := Nat.find_min hex (by omega)
  have hflip2 : c ∈ (scanUpTo img w h (m + 1)).processed := by
    rw [← hm]
    exact hfind
  have hstep_bound : ∀ n : Nat, c ∉ (scanUpTo img w h n).processed →
      c ∈ (scanUpTo img w h (n + 1)).processed → n < h * w := by
    intro n h1 h2
    by_contra hge
    have hlen : (scanOrder w h).length ≤ n := by
      rw [scanOrder_length]
      omega
    rw [scanUpTo_stable img w h n hlen] at h1
    rw [scanUpTo_stable img w h (n + 1) (by omega)] at h2
    exact h1 h2
  constructor
  · refine ⟨m, ⟨hflip1, hflip2⟩, ?_⟩
    rintro n' ⟨h1', h2'⟩
    by_contra hne'
    rcases Nat.lt_or_ge n' m with hlt | hge
    · exact hflip1 (hmono (n' + 1) m (by omega) h2')
    · exact h1' (hmono (m + 1) n' (by omega) hflip2)
  · intro n h1 h2
    have hbound := hstep_bound n h1 h2
    refine ⟨hbound, ?_⟩
    have hw0 : 0 < w := by
      rcases Nat.eq_zero_or_pos w with rfl | hw0
      · rw [Nat.mul_zero] at hbound
        omega
      · exact hw0
    have hn' : n < (scanOrder w h).length := by
      rw [scanOrder_length]
      omega
    rw [scanUpTo_succ img w h n hn'] at h2 ⊢
    have hp1 : (scanPos w n).1 < w := Nat.mod_lt n hw0
    have hp2 : (scanPos w n).2 < h := by
      show n / w < h
      rw [Nat.div_lt_iff_lt_mul hw0]
      exact hbound
    rcases scanStep_flip img w h (scanUpTo img w h n) (scanPos w n) c hp1 hp2 h1 h2 with
      hcp | ⟨s, hsh, hcov, hsx, hsy⟩
    · exact Or.inl hcp
    · exact Or.inr ⟨s, hsh, hcov, hsx, hsy, covers_scanLE hcov⟩

/-- Witness for C9 on the 2 × 1 white grid at cell (1, 0). -/
theorem C9_mask_monotone_witness :
    ∃! n : Nat, (1, 0) ∉ (scanUpTo imgWhite 2 1 n).processed ∧
      (1, 0) ∈ (scanUpTo imgWhite 2 1 (n + 1)).processed :=
  (((C9_mask_monotone imgWhite 2 1).2 (1, 0) (by decide) (by decide))).1
